import Mathlib

/-!
Verification of the Gaussian-process modeling engine (`gpmodel.py`).

Matrices are embedded as functions `Nat → Nat → ℚ` (entry access) and
vectors as `List ℚ`; numpy's exact linear solves on invertible triangular
systems (`np.linalg.lstsq` against a Cholesky factor or its transpose)
are embedded as exact forward/backward substitution over ℚ.  The floating
point square root `np.sqrt` appearing only inside upper-confidence bounds
is kept as an abstract parameter `sq`, and the stabilized Newton update of
`_find_F` (which involves `scipy.linalg.sqrtm` and the logistic function)
as an abstract parameter `step`; every theorem quantifies over them.
-/

namespace GP

/-- Dot product of a matrix row `f` (a function of the column index) with a
vector stored as a list, as computed by `np.dot`. -/
def rowDot (f : Nat → ℚ) (vs : List ℚ) : ℚ :=
  ∑ j ∈ Finset.range vs.length, f j * vs.getD j 0

/-- Matrix–vector product `A · v` for a square matrix acting on a list. -/
def matVec (A : Nat → Nat → ℚ) (vs : List ℚ) : List ℚ :=
  (List.range vs.length).map fun i => rowDot (A i) vs

/-- Predicate: `A` is lower triangular on its leading `n × n` block. -/
def LowerTri (A : Nat → Nat → ℚ) (n : Nat) : Prop :=
  ∀ i, i < n → ∀ j, j < n → i < j → A i j = 0

/-- Predicate: `A` is upper triangular on its leading `n × n` block. -/
def UpperTri (A : Nat → Nat → ℚ) (n : Nat) : Prop :=
  ∀ i, i < n → ∀ j, j < n → j < i → A i j = 0

/-- Predicate: the first `n` diagonal entries of `A` are nonzero. -/
def DiagNonzero (A : Nat → Nat → ℚ) (n : Nat) : Prop :=
  ∀ i, i < n → A i i ≠ 0

/-- Predicate: `v` is an exact solution of the linear system `A · v = b`
(what `np.linalg.lstsq` returns when `A` is invertible). -/
def Solves (A : Nat → Nat → ℚ) (v b : List ℚ) : Prop :=
  v.length = b.length ∧ ∀ i, i < b.length → rowDot (A i) v = b.getD i 0

/-- Forward substitution: the first `m` entries of the solution of the
lower-triangular system `L · v = b`. -/
def fsolveStep (L : Nat → Nat → ℚ) (b : List ℚ) : Nat → List ℚ
  | 0 => []
  | m + 1 =>
    let vs := fsolveStep L b m
    vs ++ [(b.getD m 0 - ∑ j ∈ Finset.range m, L m j * vs.getD j 0) / L m m]

/-- Forward substitution solving the lower-triangular system `L · v = b`. -/
def fsolve (L : Nat → Nat → ℚ) (b : List ℚ) : List ℚ :=
  fsolveStep L b b.length

/-- Backward substitution solving the upper-triangular system `U · x = b`,
implemented by flipping row and column indices and forward substituting. -/
def bsolve (U : Nat → Nat → ℚ) (b : List ℚ) : List ℚ :=
  (fsolve (fun i j => U (b.length - 1 - i) (b.length - 1 - j)) b.reverse).reverse

/-- Dot product of two vectors stored as lists (`np.dot` of a row vector
with a column vector of the same length). -/
def listDot (a c : List ℚ) : ℚ :=
  ∑ j ∈ Finset.range a.length, a.getD j 0 * c.getD j 0

/-- Inverse of `_normalize`, mapping a normalized value back to the
original scale via `normed * std + mean` (method `unnormalize`). -/
def unnormalize (std mean normed : ℚ) : ℚ :=
  normed * std + mean

/-- Regression branch of `_predict`: posterior mean `k · alpha` and
variance `k_star - vᵀv` with `v = lstsq(L, kᵀ)`, from the covariance
vector `k`, the prior variance `kStar`, and the (stored or locally
supplied) posterior weights `alpha` and Cholesky factor `L`; when `unnorm`
is set, the mean is unnormalized and the variance is scaled by `std²`. -/
def predictReg (k : List ℚ) (kStar : ℚ) (alpha : List ℚ) (L : Nat → Nat → ℚ)
    (std mean : ℚ) (unnorm : Bool) : ℚ × ℚ :=
  let E := listDot k alpha
  let v := fsolve L k
  let var := kStar - listDot v v
  if unnorm then (unnormalize std mean E, var * std ^ 2) else (E, var)

/-- Posterior weight vector computed by `_set_hypers` for regression
models: `alpha = lstsq(L.T, lstsq(L, normed_Y))`, two triangular solves
against the Cholesky factor and its transpose, with no explicit matrix
inverse. -/
def alphaOf (L : Nat → Nat → ℚ) (y : List ℚ) : List ℚ :=
  bsolve (fun i j => L j i) (fsolve L y)

/-- Predicate: `L` is a Cholesky factor of `Ky` on the leading `n × n`
block, i.e. `Ky = L · Lᵀ`. -/
def IsCholeskyOf (L Ky : Nat → Nat → ℚ) (n : Nat) : Prop :=
  ∀ i, i < n → ∀ j, j < n → Ky i j = ∑ t ∈ Finset.range n, L i t * L j t

/-- Predicate: `Kinv` is an inverse of `Ky` on the leading `n × n` block
(what `np.linalg.inv` returns for an invertible matrix). -/
def IsInverseOf (Kinv Ky : Nat → Nat → ℚ) (n : Nat) : Prop :=
  ∀ i, i < n → ∀ j, j < n →
    ∑ t ∈ Finset.range n, Kinv i t * Ky t j = if i = j then 1 else 0

/-- Broadcast matrix appearing in `LOO_res`: `Y - np.dot(K_inv, Y) / K_inv`
divides the column vector `K_inv · Y` elementwise by each row of `K_inv`,
so entry `(i, j)` is `Y_i - (K⁻¹Y)_i / K⁻¹_{ij}`. -/
def looMuMatrix (Kinv : Nat → Nat → ℚ) (Y : List ℚ) : Nat → Nat → ℚ :=
  fun i j => Y.getD i 0 - (matVec Kinv Y).getD i 0 / Kinv i j

/-- Leave-one-out predictive means of `LOO_res`: the diagonal of the
broadcast matrix `Y - np.dot(K_inv, Y) / K_inv`, computed from the single
inverse `K_inv = np.linalg.inv(Ky)` with no per-point refit. -/
def LOO_mus (Kinv : Nat → Nat → ℚ) (Y : List ℚ) : List ℚ :=
  (List.range Y.length).map fun i => looMuMatrix Kinv Y i i

/-- Leave-one-out predictive variances of `LOO_res`:
`np.diag(1 / K_inv)`. -/
def LOO_vs (Kinv : Nat → Nat → ℚ) (Y : List ℚ) : List ℚ :=
  (List.range Y.length).map fun i => 1 / Kinv i i

/-- One convergence test of `_find_F`: the squared difference between
`f_new` and `f`, divided by `sum(f_new)`, is below the threshold.  With
floats a zero denominator yields `inf` or `nan`, neither of which compares
below the threshold, hence the explicit guard. -/
def ConvBelow (thr : ℚ) (f fNew : List ℚ) : Prop :=
  (∑ j ∈ Finset.range fNew.length, fNew.getD j 0) ≠ 0 ∧
    (∑ j ∈ Finset.range fNew.length, (f.getD j 0 - fNew.getD j 0) ^ 2)
        / (∑ j ∈ Finset.range fNew.length, fNew.getD j 0) < thr

instance (thr : ℚ) (f fNew : List ℚ) : Decidable (ConvBelow thr f fNew) := by
  unfold ConvBelow
  infer_instance

/-- Newton-iteration trajectory of `_find_F`: `step` is one stabilized
Newton update `f ↦ f_new` (the `W`, `sqrtm`, Cholesky and triangular-solve
block of the loop body), iterated from the zero initial vector used when
the caller supplies no guess. -/
def traj (step : List ℚ → List ℚ) (ell : Nat) : Nat → List ℚ
  | 0 => List.replicate ell 0
  | t + 1 => step (traj step ell t)

/-- Convergence test between iterates `t` and `t + 1` of the trajectory. -/
def CritAt (step : List ℚ → List ℚ) (ell : Nat) (thr : ℚ) (t : Nat) : Prop :=
  ConvBelow thr (traj step ell t) (traj step ell (t + 1))

/-- The iteration loop of `_find_F`: runs up to `fuel` more evaluations,
debouncing the convergence test with the `n_below` counter (reset to zero
on any failed test, return once it exceeds 9), and raising a fatal
convergence error when the iteration cap is exhausted. -/
def findFLoop (step : List ℚ → List ℚ) (thr : ℚ) :
    List ℚ → Nat → Nat → Except String (List ℚ)
  | _, _, 0 => .error "Maximum evaluations reached without convergence."
  | f, nBelow, fuel + 1 =>
    if ConvBelow thr f (step f) then
      if 9 < nBelow + 1 then .ok (step f)
      else findFLoop step thr (step f) (nBelow + 1) fuel
    else findFLoop step thr (step f) 0 fuel

/-- Mode finding `_find_F` with the default threshold `1e-4`, the default
iteration cap of `1000` evaluations, and no caller-supplied guess. -/
def find_F (step : List ℚ → List ℚ) (ell : Nat) : Except String (List ℚ) :=
  findFLoop step (1 / 10000) (List.replicate ell 0) 0 1000

/-- Collaborator operations performed by `fit`, in program order. -/
inductive FitEvent
  | kernSetX
  | meanFuncFit
  | optimizerRun
  | artifactsBuilt
deriving DecidableEq

/-- Configuration of a `GPModel` at the time `fit` is called: whether the
objective attribute is the leave-one-out bound method `_LOO_log_p`, the
caller-supplied initial guesses, and the kernel's hyperparameter count. -/
structure FitConfig where
  objectiveIsLOO : Bool
  guesses : Option (List ℚ)
  kernHypers : Nat
deriving DecidableEq

deriving instance DecidableEq for Except

/-- Outcome of a call to `fit`: which collaborator operations ran (in
order), the inferred mode flag, whether the hyperparameters and the
derived artifacts were (re)built, and the error, if any. -/
structure FitOutcome where
  events : List FitEvent
  regr : Bool
  hypersSet : Bool
  artifactsSet : Bool
  result : Except String Unit
deriving DecidableEq

/-- Mode selection `is_class`: true iff every output is `-1` or `1`. -/
def is_class (Y : List ℚ) : Bool :=
  Y.all fun y => decide (y = -1 ∨ y = 1)

/-- Tail of `fit` shared by both modes: the caller-supplied guesses must
match the hyperparameter count, then the bounded optimizer runs and
`_set_hypers` rebuilds every derived artifact from its result. -/
def fitOptimize (cfg : FitConfig) (nGuesses : Nat) (events : List FitEvent)
    (regr : Bool) : FitOutcome :=
  match cfg.guesses with
  | some g =>
    if g.length ≠ nGuesses then
      { events := events, regr := regr, hypersSet := false,
        artifactsSet := false,
        result := .error "Length of guesses does not match number of hyperparameters" }
    else
      { events := events ++ [.optimizerRun, .artifactsBuilt], regr := regr,
        hypersSet := true, artifactsSet := true, result := .ok () }
  | none =>
      { events := events ++ [.optimizerRun, .artifactsBuilt], regr := regr,
        hypersSet := true, artifactsSet := true, result := .ok () }

/-- Control-flow embedding of `fit`: assigns the training-data attributes,
calls `kern.set_X` (which caches the unscaled training covariance matrix),
computes the mode flag, and proceeds to validation, the optimizer, or an
error.  `yIndex` and `varIndex` are the pandas index labels of `Y` and of
`variances`. -/
def fit (cfg : FitConfig) (yIndex : List Nat) (Y : List ℚ)
    (varIndex : Option (List Nat)) : FitOutcome :=
  let events := [FitEvent.kernSetX]
  let regr := ! is_class Y
  if regr then
    let events := events ++ [FitEvent.meanFuncFit]
    match varIndex with
    | some vi =>
      if vi ≠ yIndex then
        { events := events, regr := true, hypersSet := false,
          artifactsSet := false, result := .error "Indices do not match." }
      else
        fitOptimize cfg cfg.kernHypers events true
    | none => fitOptimize cfg (1 + cfg.kernHypers) events true
  else
    if cfg.objectiveIsLOO then
      { events := events, regr := false, hypersSet := false,
        artifactsSet := false,
        result := .error "Classification models must be trained on marginal likelihood" }
    else
      fitOptimize cfg cfg.kernHypers events false

/-- Classifies the collaborator operations of `fit` that perform numerical
work: `set_X` computes and caches the unscaled covariance matrix of the
training set (kernel contract, confirmed by the kernel tests), the mean
function fits a baseline, the optimizer evaluates objectives, and artifact
construction factorizes `Ky`. -/
def numericalWork : FitEvent → Bool
  | .kernSetX => true
  | .meanFuncFit => true
  | .optimizerRun => true
  | .artifactsBuilt => true

/-- A candidate row of the bandit's working DataFrame: identifier, cached
covariance vector against the (growing) training set, prior variance, and
current posterior mean and variance. -/
structure Cand where
  id : Nat
  k : List ℚ
  kStar : ℚ
  mean : ℚ
  var : ℚ
deriving DecidableEq

/-- Upper confidence bound of a candidate:
`predictions[:, 0] + np.sqrt(predictions[:, 1]) * 2`, with `sq` the
numerical square root `np.sqrt`. -/
def ub (sq : ℚ → ℚ) (c : Cand) : ℚ :=
  c.mean + sq c.var * 2

/-- Selection `df[['UB']].idxmax()` followed by `df.drop(id_max)`: the
first row attaining the maximal upper bound, together with the remaining
rows in their original order. -/
def pickFirstMax (sq : ℚ → ℚ) : List Cand → Option (Cand × List Cand)
  | [] => none
  | c :: cs =>
    match pickFirstMax sq cs with
    | none => some (c, [])
    | some (b, rest) =>
      if ub sq c < ub sq b then some (b, c :: rest) else some (c, cs)

/-- Predicate: `c` is the first-encountered candidate of `pool` with
maximal upper bound and `rest` is `pool` with that occurrence removed,
order preserved — every earlier candidate is strictly below `c`, every
later one is at most `c`. -/
def IsPick (sq : ℚ → ℚ) (pool : List Cand) (c : Cand) (rest : List Cand) : Prop :=
  ∃ pre post, pool = pre ++ c :: post ∧ rest = pre ++ post ∧
    (∀ d ∈ pre, ub sq d < ub sq c) ∧ (∀ d ∈ post, ub sq d ≤ ub sq c)

/-- The selection loop of `batch_UB_bandit`: `n` rounds of SELECT then
UPDATE.  `update` is the incremental covariance/coefficient recomputation
applied to the selected candidate and the remaining pool (the `np.append`,
Cholesky, triangular-solve and re-prediction block); it threads the local
state `σ` accumulated across rounds (`observed_X`, `observed_Y`, `Ky`,
`L`, `alpha`) and is skipped on the final round.  Selecting from an empty
pool raises (pandas `idxmax` on an empty frame), and an update on an empty
remainder raises (`predictions[:, 0]` on an empty array); neither returns
a partial result. -/
def banditLoop {σ : Type} (sq : ℚ → ℚ)
    (update : σ → Cand → List Cand → σ × List Cand) :
    Nat → σ → List Cand → Except String (List Nat)
  | 0, _, _ => .ok []
  | n + 1, st, pool =>
    match pickFirstMax sq pool with
    | none => .error "attempt to get argmax of an empty sequence"
    | some (c, rest) =>
      if n = 0 then .ok [c.id]
      else if rest.isEmpty then .error "too many indices for array"
      else
        match banditLoop sq update n (update st c rest).1
            (update st c rest).2 with
        | .ok ids => .ok (c.id :: ids)
        | .error e => .error e

/-- Specification of a whole selection pass: `ids` are the identifiers
chosen by `n` rounds of first-encountered-maximal-upper-bound selection
with removal, the remaining pool being re-predicted by the stateful
`update` between rounds (and left untouched after the final
selection). -/
inductive Selects {σ : Type} (sq : ℚ → ℚ)
    (update : σ → Cand → List Cand → σ × List Cand) :
    Nat → σ → List Cand → List Nat → Prop
  | nil (st : σ) (pool : List Cand) : Selects sq update 0 st pool []
  | last (st : σ) (pool : List Cand) (c : Cand) (rest : List Cand)
      (hp : IsPick sq pool c rest) : Selects sq update 1 st pool [c.id]
  | step (n : Nat) (st : σ) (pool : List Cand) (c : Cand) (rest : List Cand)
      (ids : List Nat) (hp : IsPick sq pool c rest) (hne : rest ≠ [])
      (hs : Selects sq update (n + 1) (update st c rest).1
        (update st c rest).2 ids) :
      Selects sq update (n + 2) st pool (c.id :: ids)

/-- INIT phase of `batch_UB_bandit`: for each candidate sequence compute
its covariance vector against the training set and its prior variance with
`kern.calc_kernel`, then its initial posterior mean and variance via
`_predict(k, k_star, unnorm=False)`. -/
def initCand (kf : Nat → Nat → ℚ) (xSeqs : List Nat) (alpha : List ℚ)
    (L : Nat → Nat → ℚ) (std mean : ℚ) (s : Nat) : Cand :=
  let k := xSeqs.map fun x => kf s x
  let kStar := kf s s
  let p := predictReg k kStar alpha L std mean false
  { id := s, k := k, kStar := kStar, mean := p.1, var := p.2 }

/-- The model attributes read or written by `batch_UB_bandit`, plus the
kernel's training cache.  `kf` below stands for `kern.calc_kernel` at the
fitted hyperparameters. -/
structure BanditModel where
  X_seqs : List Nat
  normed_Y : List ℚ
  Ky : Nat → Nat → ℚ
  L : Nat → Nat → ℚ
  alpha : List ℚ
  hypers : List ℚ
  std : ℚ
  mean : ℚ
  kernCache : List Nat

/-- Embedding of `batch_UB_bandit`: trains the kernel cache on the
candidate sequences (the only attribute-level mutation — the locals
`observed_X`, `observed_Y`, `Ky`, `L`, `alpha` and the DataFrame are fresh
objects produced by `DataFrame.append` and `np.append`, never written
back, and no `kern.delete` is issued), initializes the pool, runs the
selection loop, and returns the selected identifiers in selection order
together with the resulting model state. -/
def batch_UB_bandit {σ : Type} (sq : ℚ → ℚ)
    (update : σ → Cand → List Cand → σ × List Cand) (st0 : σ)
    (kf : Nat → Nat → ℚ) (m : BanditModel) (seqIds : List Nat) (n : Nat) :
    Except String (List Nat) × BanditModel :=
  let m1 : BanditModel := { m with kernCache := m.kernCache ++ seqIds }
  let pool := seqIds.map (initCand kf m.X_seqs m.alpha m.L m.std m.mean)
  (banditLoop sq update n st0 pool, m1)

/-- One-shot prediction of a single candidate: `_predict` on its covariance
vector and prior variance, on the normalized scale used by the bandit. -/
def oneShot (kf : Nat → Nat → ℚ) (xSeqs : List Nat) (alpha : List ℚ)
    (L : Nat → Nat → ℚ) (std mean : ℚ) (s : Nat) : ℚ × ℚ :=
  predictReg (xSeqs.map fun x => kf s x) (kf s s) alpha L std mean false

/-- First-encountered maximizer of `f` over a list of identifiers. -/
def specArgmax (f : Nat → ℚ) : List Nat → Option Nat
  | [] => none
  | s :: ss =>
    match specArgmax f ss with
    | none => some s
    | some b => if f s < f b then some b else some s

/-- Spec-side selection for the refinement claim, following the spec's
words: compute a one-shot prediction for every candidate and take the one
with the largest upper bound `mean + 2 · sqrt(variance)`. -/
def specTopPick (sq : ℚ → ℚ) (kf : Nat → Nat → ℚ) (xSeqs : List Nat)
    (alpha : List ℚ) (L : Nat → Nat → ℚ) (std mean : ℚ)
    (seqIds : List Nat) : Option Nat :=
  specArgmax
    (fun s => (oneShot kf xSeqs alpha L std mean s).1
      + 2 * sq (oneShot kf xSeqs alpha L std mean s).2) seqIds

/-- Pairwise ROC-AUC of scalar scores against ±1 labels: the fraction of
(positive, negative) label pairs whose scores are ranked correctly, ties
counting one half. -/
def rocAuc (pairs : List (ℚ × ℚ)) : ℚ :=
  let pos := (pairs.filter fun p => decide (p.1 = 1)).map Prod.snd
  let neg := (pairs.filter fun p => decide (p.1 = -1)).map Prod.snd
  let wins := (pos.map fun sp =>
    (neg.map fun sn =>
      if sn < sp then (1 : ℚ) else if sn = sp then 1 / 2 else 0).sum).sum
  wins / (pos.length * neg.length)

/-- Argument shapes `score` can pass to `sklearn.metrics.roc_auc_score`: a
1-D array of one scalar score per sample, or the 2-D array arising from a
list of `(probability, latent mean, latent variance)` triples. -/
inductive ScoreArray
  | oneD (xs : List ℚ)
  | twoD (xs : List (ℚ × ℚ × ℚ))
deriving DecidableEq

/-- Embedding of `sklearn.metrics.roc_auc_score` on binary ±1 labels:
scalar scores give the pairwise AUC; a 2-D score array is rejected by
`column_or_1d` inside `roc_curve` with a shape error. -/
def roc_auc_score (yTrue : List ℚ) : ScoreArray → Except String ℚ
  | .oneD xs => .ok (rocAuc (yTrue.zip xs))
  | .twoD _ => .error "bad input shape"

/-- Classification branch of `score`: `roc_auc_score(Y, predicted)` where
`predicted = self.predicts(X)` is the list of `(pi_star, f_bar, variance)`
triples returned by `_predict` for classification models — the raw
triples, not the extracted class probabilities. -/
def score_class (Y : List ℚ) (predicted : List (ℚ × ℚ × ℚ)) :
    Except String ℚ :=
  roc_auc_score Y (.twoD predicted)

/-- The attribute set (`__dict__`) of a fitted regression `GPModel`, with
the kernel and mean-function objects as opaque tokens and the objective as
the bound method it names. -/
structure GPAttrs where
  kern : Nat
  mean_func : Nat
  guesses : Option (List ℚ)
  objectiveIsLOO : Bool
  variances : Option (List ℚ)
  X_seqs : List Nat
  Y : List ℚ
  normed_Y : List ℚ
  mean : ℚ
  std : ℚ
  hypers : List (String × ℚ)
  regr : Bool
  ell : Nat
  K : List (List ℚ)
  Ky : List (List ℚ)
  cholL : List (List ℚ)
  alpha : List ℚ
  ML : ℚ
  log_p : ℚ
deriving DecidableEq

/-- The pickled blob written by `dump`: every entry of the model's
`__dict__` — the kernel object included — with the objective replaced by
its name and the hyperparameter namedtuple replaced by a name→value
dict. -/
structure Blob where
  kern : Nat
  mean_func : Nat
  guesses : Option (List ℚ)
  objectiveName : String
  variances : Option (List ℚ)
  X_seqs : List Nat
  Y : List ℚ
  normed_Y : List ℚ
  mean : ℚ
  std : ℚ
  hypersDict : List (String × ℚ)
  regr : Bool
  ell : Nat
  K : List (List ℚ)
  Ky : List (List ℚ)
  cholL : List (List ℚ)
  alpha : List ℚ
  ML : ℚ
  log_p : ℚ
deriving DecidableEq

/-- Serialization `dump`: the dict comprehension copies every attribute of
`__dict__` (the kernel among them), then overwrites the objective with its
name, the guesses, and the hyperparameters as a dict. -/
def dump (m : GPAttrs) : Blob :=
  { kern := m.kern
    mean_func := m.mean_func
    guesses := m.guesses
    objectiveName := if m.objectiveIsLOO then "LOO_log_p" else "log_ML"
    variances := m.variances
    X_seqs := m.X_seqs
    Y := m.Y
    normed_Y := m.normed_Y
    mean := m.mean
    std := m.std
    hypersDict := m.hypers
    regr := m.regr
    ell := m.ell
    K := m.K
    Ky := m.Ky
    cholL := m.cholL
    alpha := m.alpha
    ML := m.ML
    log_p := m.log_p }

/-- The keys of the saved dict, following the comprehension over
`__dict__` in `dump` for a fitted regression model. -/
def dumpKeys : List String :=
  ["kern", "mean_func", "guesses", "objective", "variances", "X_seqs", "Y",
   "normed_Y", "mean", "std", "hypers", "regr", "_ell", "_K", "_Ky", "_L",
   "_alpha", "ML", "log_p"]

/-- Deserialization `load`: reads the blob, builds
`GPModel(attributes['kern'])` — the kernel comes from the blob, the
classmethod takes only a path — and restores every attribute with
`_set_params`, which maps the objective name back to the bound method
(rejecting unknown names) and the hyperparameter dict back to a
namedtuple. -/
def load (b : Blob) : Except String GPAttrs :=
  if b.objectiveName = "log_ML" ∨ b.objectiveName = "LOO_log_p" then
    .ok
      { kern := b.kern
        mean_func := b.mean_func
        guesses := b.guesses
        objectiveIsLOO := decide (b.objectiveName = "LOO_log_p")
        variances := b.variances
        X_seqs := b.X_seqs
        Y := b.Y
        normed_Y := b.normed_Y
        mean := b.mean
        std := b.std
        hypers := b.hypersDict
        regr := b.regr
        ell := b.ell
        K := b.K
        Ky := b.Ky
        cholL := b.cholL
        alpha := b.alpha
        ML := b.ML
        log_p := b.log_p }
  else
    .error (b.objectiveName ++ " is not a valid objective")

/-! ## Theorems -/

theorem fsolveStep_length (L : Nat → Nat → ℚ) (b : List ℚ) :
    ∀ m, (fsolveStep L b m).length = m := by
  intro m
  induction m with
  | zero => rfl
  | succ m ih => simp [fsolveStep, ih]

theorem fsolveStep_getD_stable (L : Nat → Nat → ℚ) (b : List ℚ) {i m m' : Nat}
    (him : i < m) (hmm : m ≤ m') :
    (fsolveStep L b m').getD i 0 = (fsolveStep L b m).getD i 0 := by
  induction m' with
  | zero => omega
  | succ m' ih =>
    rcases Nat.lt_or_ge m (m' + 1) with h | h
    · have hm : m ≤ m' := by omega
      rw [← ih hm]
      show (fsolveStep L b m' ++ [_]).getD i 0 = _
      rw [List.getD_append]
      rw [fsolveStep_length]
      omega
    · have : m = m' + 1 := by omega
      rw [this]

theorem fsolveStep_getD_last (L : Nat → Nat → ℚ) (b : List ℚ) (m : Nat) :
    (fsolveStep L b (m + 1)).getD m 0
      = (b.getD m 0 - ∑ j ∈ Finset.range m, L m j * (fsolveStep L b m).getD j 0)
        / L m m := by
  show (fsolveStep L b m ++ [_]).getD m 0 = _
  rw [List.getD_append_right]
  · rw [fsolveStep_length]
    simp
  · rw [fsolveStep_length]

theorem fsolve_length (L : Nat → Nat → ℚ) (b : List ℚ) :
    (fsolve L b).length = b.length :=
  fsolveStep_length L b b.length

theorem fsolve_getD (L : Nat → Nat → ℚ) (b : List ℚ) {i : Nat} (hi : i < b.length) :
    (fsolve L b).getD i 0
      = (b.getD i 0 - ∑ j ∈ Finset.range i, L i j * (fsolve L b).getD j 0)
        / L i i := by
  have h1 : (fsolve L b).getD i 0 = (fsolveStep L b (i + 1)).getD i 0 :=
    fsolveStep_getD_stable L b (Nat.lt_succ_self i) hi
  rw [h1, fsolveStep_getD_last]
  congr 1
  congr 1
  apply Finset.sum_congr rfl
  intro j hj
  have hji : j < i := Finset.mem_range.mp hj
  congr 1
  exact (fsolveStep_getD_stable L b hji (by omega)).symm

theorem fsolve_rowDot (L : Nat → Nat → ℚ) (b : List ℚ)
    (hL : LowerTri L b.length) (hd : DiagNonzero L b.length)
    {i : Nat} (hi : i < b.length) :
    rowDot (L i) (fsolve L b) = b.getD i 0 := by
  unfold rowDot
  rw [fsolve_length]
  have hsub : Finset.range (i + 1) ⊆ Finset.range b.length := by
    apply Finset.range_subset.mpr
    omega
  have hzero : ∀ x ∈ Finset.range b.length, x ∉ Finset.range (i + 1) →
      L i x * (fsolve L b).getD x 0 = 0 := by
    intro x hx hnx
    have hx1 : x < b.length := Finset.mem_range.mp hx
    have hx2 : i < x := by
      have : ¬ x < i + 1 := fun h => hnx (Finset.mem_range.mpr h)
      omega
    rw [hL i hi x hx1 hx2, zero_mul]
  rw [← Finset.sum_subset hsub hzero]
  rw [Finset.sum_range_succ]
  rw [fsolve_getD L b hi]
  have hdi := hd i hi
  field_simp

theorem fsolve_solves (L : Nat → Nat → ℚ) (b : List ℚ)
    (hL : LowerTri L b.length) (hd : DiagNonzero L b.length) :
    Solves L (fsolve L b) b :=
  ⟨fsolve_length L b, fun _ hi => fsolve_rowDot L b hL hd hi⟩

theorem getD_reverse (l : List ℚ) {i : Nat} (h : i < l.length) :
    l.reverse.getD i 0 = l.getD (l.length - 1 - i) 0 := by
  rw [List.getD_eq_getElem?_getD, List.getD_eq_getElem?_getD]
  rw [List.getElem?_reverse h]

theorem bsolve_length (U : Nat → Nat → ℚ) (b : List ℚ) :
    (bsolve U b).length = b.length := by
  unfold bsolve
  rw [List.length_reverse, fsolve_length, List.length_reverse]

theorem bsolve_rowDot (U : Nat → Nat → ℚ) (b : List ℚ)
    (hU : UpperTri U b.length) (hd : DiagNonzero U b.length)
    {i : Nat} (hi : i < b.length) :
    rowDot (U i) (bsolve U b) = b.getD i 0 := by
  set n := b.length with hn
  set Lf := fun i j => U (n - 1 - i) (n - 1 - j) with hLf
  set y := fsolve Lf b.reverse with hy
  have hylen : y.length = n := by
    rw [hy, fsolve_length, List.length_reverse]
  have hLf_tri : LowerTri Lf b.reverse.length := by
    rw [List.length_reverse, ← hn]
    intro a ha c hc hac
    exact hU (n - 1 - a) (by omega) (n - 1 - c) (by omega) (by omega)
  have hLf_diag : DiagNonzero Lf b.reverse.length := by
    rw [List.length_reverse, ← hn]
    intro a ha
    exact hd (n - 1 - a) (by omega)
  have hsolve : ∀ t, t < n → rowDot (Lf t) y = b.reverse.getD t 0 := by
    intro t ht
    exact fsolve_rowDot Lf b.reverse hLf_tri hLf_diag
      (by rw [List.length_reverse, ← hn]; exact ht)
  unfold rowDot
  have hblen : (bsolve U b).length = n := bsolve_length U b
  rw [hblen]
  have hstep1 : ∀ j ∈ Finset.range n, U i j * (bsolve U b).getD j 0
      = U i j * y.getD (n - 1 - j) 0 := by
    intro j hj
    have hjn : j < n := Finset.mem_range.mp hj
    have : (bsolve U b).getD j 0 = y.getD (n - 1 - j) 0 := by
      show (fsolve Lf b.reverse).reverse.getD j 0 = _
      rw [getD_reverse _ (by rw [← hy, hylen]; exact hjn), ← hy, hylen]
    rw [this]
  rw [Finset.sum_congr rfl hstep1]
  have hstep2 : ∀ j ∈ Finset.range n, U i j * y.getD (n - 1 - j) 0
      = (fun t => U i (n - 1 - t) * y.getD t 0) (n - 1 - j) := by
    intro j hj
    have hjn : j < n := Finset.mem_range.mp hj
    simp only []
    congr 2
    omega
  rw [Finset.sum_congr rfl hstep2]
  rw [Finset.sum_range_reflect (fun t => U i (n - 1 - t) * y.getD t 0) n]
  have hrow : ∑ t ∈ Finset.range n, U i (n - 1 - t) * y.getD t 0
      = rowDot (Lf (n - 1 - i)) y := by
    unfold rowDot
    rw [hylen]
    apply Finset.sum_congr rfl
    intro t ht
    have htn : t < n := Finset.mem_range.mp ht
    rw [hLf]
    simp only []
    congr 2
    omega
  rw [hrow, hsolve (n - 1 - i) (by omega)]
  rw [getD_reverse b (by omega)]
  congr 1
  omega

theorem bsolve_solves (U : Nat → Nat → ℚ) (b : List ℚ)
    (hU : UpperTri U b.length) (hd : DiagNonzero U b.length) :
    Solves U (bsolve U b) b :=
  ⟨bsolve_length U b, fun _ hi => bsolve_rowDot U b hU hd hi⟩

theorem getD_map_range (f : Nat → ℚ) {n i : Nat} (h : i < n) :
    ((List.range n).map f).getD i 0 = f i := by
  rw [List.getD_eq_getElem?_getD, List.getElem?_map, List.getElem?_range h]
  rfl

/-- C1: for every fitted regression model and every query with covariance
vector `k` and prior variance `k_star`, `_predict` returns mean `k·alpha`
and variance `k_star − vᵀv` where `v` solves `L·v = kᵀ`, and when
un-normalization is requested the variance is multiplied by `std²` and the
mean is mapped through `mean·std + offset`. -/
theorem predict_regression_correct (k alpha : List ℚ) (kStar std mean : ℚ)
    (L : Nat → Nat → ℚ)
    (hL : LowerTri L k.length) (hd : DiagNonzero L k.length) :
    Solves L (fsolve L k) k ∧
    predictReg k kStar alpha L std mean false
      = (listDot k alpha, kStar - listDot (fsolve L k) (fsolve L k)) ∧
    predictReg k kStar alpha L std mean true
      = (listDot k alpha * std + mean,
         (kStar - listDot (fsolve L k) (fsolve L k)) * std ^ 2) :=
  ⟨fsolve_solves L k hL hd, rfl, rfl⟩

theorem predict_regression_correct_witness :
    Solves (fun i j => if j ≤ i then 1 else 0)
      (fsolve (fun i j => if j ≤ i then 1 else 0) [1, 2]) [1, 2] ∧
    predictReg [1, 2] 5 [3, 4] (fun i j => if j ≤ i then 1 else 0) 2 7 true
      = (listDot [1, 2] [3, 4] * 2 + 7,
         (5 - listDot (fsolve (fun i j => if j ≤ i then 1 else 0) [1, 2])
            (fsolve (fun i j => if j ≤ i then 1 else 0) [1, 2])) * 2 ^ 2) := by
  have h := predict_regression_correct [1, 2] [3, 4] 5 2 7
    (fun i j => if j ≤ i then 1 else 0)
    (by intro i _ j _ hij; simp [Nat.not_le.mpr hij])
    (by intro i _; simp)
  exact ⟨h.1, h.2.2⟩

/-- C2: for every regression model whose hyperparameters have been
accepted (`L` a Cholesky factor of the positive-definite noisy covariance
`Ky`), the stored posterior weight vector `alpha`, computed by two
triangular solves against `L` and its transpose with no explicit matrix
inverse, satisfies `Ky·alpha = normalized outputs`. -/
theorem alpha_solves_Ky (L Ky : Nat → Nat → ℚ) (y : List ℚ)
    (hL : LowerTri L y.length) (hd : DiagNonzero L y.length)
    (hchol : IsCholeskyOf L Ky y.length) :
    Solves Ky (alphaOf L y) y := by
  set n := y.length with hn
  set w := fsolve L y with hw
  have hwlen : w.length = n := fsolve_length L y
  have hwsol : ∀ t, t < n → rowDot (L t) w = y.getD t 0 :=
    fun t ht => fsolve_rowDot L y hL hd ht
  have hUt : UpperTri (fun i j => L j i) w.length := by
    rw [hwlen]
    intro i hi j hj hji
    exact hL j hj i hi hji
  have hdt : DiagNonzero (fun i j => L j i) w.length := by
    rw [hwlen]
    intro i hi
    exact hd i hi
  have halpha := bsolve_solves (fun i j => L j i) w hUt hdt
  have hallen : (alphaOf L y).length = n := by
    show (bsolve (fun i j => L j i) w).length = n
    rw [bsolve_length, hwlen]
  constructor
  · rw [hallen]
  · intro i hi
    rw [← hn] at hi
    unfold rowDot
    rw [hallen]
    have h1 : ∀ j ∈ Finset.range n, Ky i j * (alphaOf L y).getD j 0
        = ∑ t ∈ Finset.range n, L i t * L j t * (alphaOf L y).getD j 0 := by
      intro j hj
      rw [hchol i hi j (Finset.mem_range.mp hj), Finset.sum_mul]
    rw [Finset.sum_congr rfl h1, Finset.sum_comm]
    have h2 : ∀ t ∈ Finset.range n,
        ∑ j ∈ Finset.range n, L i t * L j t * (alphaOf L y).getD j 0
          = L i t * w.getD t 0 := by
      intro t ht
      have h3 : ∑ j ∈ Finset.range n, L i t * L j t * (alphaOf L y).getD j 0
          = L i t * ∑ j ∈ Finset.range n, L j t * (alphaOf L y).getD j 0 := by
        rw [Finset.mul_sum]
        apply Finset.sum_congr rfl
        intro j _
        ring
      rw [h3]
      congr 1
      have h4 := halpha.2 t (by rw [hwlen]; exact Finset.mem_range.mp ht)
      unfold rowDot at h4
      rw [halpha.1, hwlen] at h4
      exact h4
    rw [Finset.sum_congr rfl h2]
    have h5 : ∑ t ∈ Finset.range n, L i t * w.getD t 0 = rowDot (L i) w := by
      unfold rowDot
      rw [hwlen]
    rw [h5]
    exact hwsol i hi

theorem alpha_solves_Ky_witness :
    Solves (fun i j => if i = 1 ∧ j = 1 then 2 else 1)
      (alphaOf (fun i j => if j ≤ i then 1 else 0) [1, 3]) [1, 3] :=
  alpha_solves_Ky (fun i j => if j ≤ i then 1 else 0)
    (fun i j => if i = 1 ∧ j = 1 then 2 else 1) [1, 3]
    (by intro i _ j _ hij; simp [Nat.not_le.mpr hij])
    (by intro i _; simp)
    (by unfold IsCholeskyOf
        intro i hi j hj
        simp only [List.length_cons, List.length_nil] at hi hj
        interval_cases i <;> interval_cases j <;>
          norm_num [Finset.sum_range_succ])

/-- C3: the leave-one-out routine computes, from a single inverse of the
noisy covariance `Ky`, per-sample predictions
mean_i = Y_i − (K⁻¹Y)_i / (K⁻¹)_ii and variance_i = 1/(K⁻¹)_ii, without
refitting separately for each held-out point. -/
theorem LOO_res_closed_form (Kinv Ky : Nat → Nat → ℚ) (Y : List ℚ)
    (_hinv : IsInverseOf Kinv Ky Y.length) :
    ∀ i, i < Y.length →
      (LOO_mus Kinv Y).getD i 0
        = Y.getD i 0 - (matVec Kinv Y).getD i 0 / Kinv i i ∧
      (LOO_vs Kinv Y).getD i 0 = 1 / Kinv i i := by
  intro i hi
  constructor
  · unfold LOO_mus
    rw [getD_map_range _ hi]
    rfl
  · unfold LOO_vs
    rw [getD_map_range _ hi]

theorem LOO_res_closed_form_witness :
    (LOO_mus (fun i j => if i = 0 ∧ j = 0 then 1/2 else
        if i = 1 ∧ j = 1 then 1/4 else 0) [1, 2]).getD 0 0
      = (1 : ℚ) - (matVec (fun i j => if i = 0 ∧ j = 0 then 1/2 else
          if i = 1 ∧ j = 1 then 1/4 else 0) [1, 2]).getD 0 0 / (1/2) ∧
    (LOO_vs (fun i j => if i = 0 ∧ j = 0 then 1/2 else
        if i = 1 ∧ j = 1 then 1/4 else 0) [1, 2]).getD 0 0 = 2 := by
  have h := LOO_res_closed_form
    (fun i j => if i = 0 ∧ j = 0 then 1/2 else if i = 1 ∧ j = 1 then 1/4 else 0)
    (fun i j => if i = 0 ∧ j = 0 then 2 else if i = 1 ∧ j = 1 then 4 else 0)
    [1, 2]
    (by unfold IsInverseOf
        intro i hi j hj
        simp only [List.length_cons, List.length_nil] at hi hj
        interval_cases i <;> interval_cases j <;>
          norm_num [Finset.sum_range_succ])
    0 (by decide)
  refine ⟨?_, ?_⟩
  · have h1 := h.1
    simpa using h1
  · have h2 := h.2
    rw [h2]
    norm_num

theorem findFLoop_sound (step : List ℚ → List ℚ) (ell : Nat) (thr : ℚ) :
    ∀ fuel t nBelow g, nBelow ≤ t →
      (∀ d, d < nBelow → CritAt step ell thr (t - 1 - d)) →
      findFLoop step thr (traj step ell t) nBelow fuel = .ok g →
      ∃ m, t ≤ m ∧ m < t + fuel ∧ 9 ≤ m ∧
        (∀ d, d < 10 → CritAt step ell thr (m - d)) ∧
        g = traj step ell (m + 1) := by
  intro fuel
  induction fuel with
  | zero =>
    intro t nBelow g _ _ h
    simp [findFLoop] at h
  | succ fuel ih =>
    intro t nBelow g hnb hcrit hok
    simp only [findFLoop] at hok
    by_cases hc : ConvBelow thr (traj step ell t) (step (traj step ell t))
    · rw [if_pos hc] at hok
      have hcrit_t : CritAt step ell thr t := hc
      by_cases h9 : 9 < nBelow + 1
      · rw [if_pos h9] at hok
        have hg : g = traj step ell (t + 1) := by
          cases hok
          rfl
        refine ⟨t, le_refl t, by omega, by omega, ?_, hg⟩
        intro d hd
        rcases Nat.eq_zero_or_pos d with hd0 | hdpos
        · subst hd0
          simpa using hcrit_t
        · have hdn : d - 1 < nBelow := by omega
          have h2 := hcrit (d - 1) hdn
          have h3 : t - 1 - (d - 1) = t - d := by omega
          rw [h3] at h2
          exact h2
      · rw [if_neg h9] at hok
        have hcrits : ∀ d, d < nBelow + 1 → CritAt step ell thr (t + 1 - 1 - d) := by
          intro d hd
          rcases Nat.eq_zero_or_pos d with hd0 | hdpos
          · subst hd0
            simpa using hcrit_t
          · have hdn : d - 1 < nBelow := by omega
            have h2 := hcrit (d - 1) hdn
            have h3 : t - 1 - (d - 1) = t + 1 - 1 - d := by omega
            rw [h3] at h2
            exact h2
        obtain ⟨m, hm1, hm2, hm3, hm4, hm5⟩ :=
          ih (t + 1) (nBelow + 1) g (by omega) hcrits hok
        exact ⟨m, by omega, by omega, hm3, hm4, hm5⟩
    · rw [if_neg hc] at hok
      obtain ⟨m, hm1, hm2, hm3, hm4, hm5⟩ :=
        ih (t + 1) 0 g (by omega) (fun d hd => absurd hd (by omega)) hok
      exact ⟨m, by omega, by omega, hm3, hm4, hm5⟩

theorem findFLoop_error (step : List ℚ → List ℚ) (thr : ℚ) :
    ∀ fuel f nBelow e, findFLoop step thr f nBelow fuel = .error e →
      e = "Maximum evaluations reached without convergence." := by
  intro fuel
  induction fuel with
  | zero =>
    intro f nb e h
    simp [findFLoop] at h
    exact h.symm
  | succ fuel ih =>
    intro f nb e h
    simp only [findFLoop] at h
    by_cases hc : ConvBelow thr f (step f)
    · rw [if_pos hc] at h
      by_cases h9 : 9 < nb + 1
      · rw [if_pos h9] at h
        cases h
      · rw [if_neg h9] at h
        exact ih _ _ _ h
    · rw [if_neg hc] at h
      exact ih _ _ _ h

/-- C4: for every classification mode-finding run started without a
caller-supplied guess, `_find_F` returns `f_hat` only after the convergence
criterion (squared difference between `f_new` and `f`, divided by
`sum(f_new)`, below 1e-4) has held for 10 consecutive iterations, and when
the criterion is not so sustained within the 1000-evaluation cap the
routine raises a fatal convergence error with no partial result. -/
theorem find_F_convergence (step : List ℚ → List ℚ) (ell : Nat) :
    (∀ g, find_F step ell = .ok g →
      ∃ m, 9 ≤ m ∧ m < 1000 ∧
        (∀ d, d < 10 → CritAt step ell (1 / 10000) (m - d)) ∧
        g = traj step ell (m + 1)) ∧
    ((¬ ∃ m, 9 ≤ m ∧ m < 1000 ∧
        ∀ d, d < 10 → CritAt step ell (1 / 10000) (m - d)) →
      find_F step ell
        = .error "Maximum evaluations reached without convergence.") := by
  have hsound : ∀ g, find_F step ell = .ok g →
      ∃ m, 9 ≤ m ∧ m < 1000 ∧
        (∀ d, d < 10 → CritAt step ell (1 / 10000) (m - d)) ∧
        g = traj step ell (m + 1) := by
    intro g hg
    obtain ⟨m, _, hm2, hm3, hm4, hm5⟩ :=
      findFLoop_sound step ell (1 / 10000) 1000 0 0 g (le_refl 0)
        (fun d hd => absurd hd (by omega)) hg
    exact ⟨m, hm3, by omega, hm4, hm5⟩
  refine ⟨hsound, ?_⟩
  intro hnone
  cases hres : find_F step ell with
  | ok g =>
    exfalso
    obtain ⟨m, hm1, hm2, hm3, _⟩ := hsound g hres
    exact hnone ⟨m, hm1, hm2, hm3⟩
  | error e =>
    rw [findFLoop_error step (1 / 10000) 1000 _ _ _ hres]

theorem findFLoop_fixed (step : List ℚ → List ℚ) (thr : ℚ) (f : List ℚ)
    (hf : step f = f) (hc : ConvBelow thr f f) :
    ∀ fuel nb, nb ≤ 9 → 10 - nb ≤ fuel → findFLoop step thr f nb fuel = .ok f := by
  intro fuel
  induction fuel with
  | zero =>
    intro nb h1 h2
    omega
  | succ fuel ih =>
    intro nb h1 _
    simp only [findFLoop, hf]
    rw [if_pos hc]
    by_cases h9 : 9 < nb + 1
    · rw [if_pos h9]
    · rw [if_neg h9]
      exact ih (nb + 1) (by omega) (by omega)

theorem findFLoop_step_false (step : List ℚ → List ℚ) (thr : ℚ) (f : List ℚ)
    (nb : Nat) (h0 : ¬ ConvBelow thr f (step f)) (fuel : Nat) :
    findFLoop step thr f nb (fuel + 1) = findFLoop step thr (step f) 0 fuel := by
  simp only [findFLoop]
  rw [if_neg h0]

theorem find_F_convergence_witness :
    ∃ m, 9 ≤ m ∧ m < 1000 ∧
      (∀ d, d < 10 → CritAt (fun _ => [1]) 1 (1 / 10000) (m - d)) ∧
      ([1] : List ℚ) = traj (fun _ => [1]) 1 (m + 1) := by
  have heval : find_F (fun _ => ([1] : List ℚ)) 1 = .ok [1] := by
    have h0 : ¬ ConvBelow (1 / 10000) (List.replicate 1 0) [1] := by
      norm_num [ConvBelow]
    have h1 : ConvBelow (1 / 10000) [1] ([1] : List ℚ) := by
      norm_num [ConvBelow]
    show findFLoop (fun _ => [1]) (1 / 10000) (List.replicate 1 0) 0 (999 + 1)
      = .ok [1]
    rw [findFLoop_step_false (fun _ => [1]) (1 / 10000) (List.replicate 1 0) 0 h0 999]
    exact findFLoop_fixed (fun _ => [1]) (1 / 10000) [1] rfl h1 999 0 (by omega) (by omega)
  exact (find_F_convergence (fun _ => [1]) 1).1 [1] heval

/-- C5 (counterexample): on a ±1-coded training set with the leave-one-out
objective, `fit` does raise the configuration error, but `kern.set_X` has
already cached the training covariance matrix by then — numerical work
precedes the error, contrary to the claim as stated. -/
theorem fit_class_LOO_counterexample :
    (fit ⟨true, none, 2⟩ [0, 1] [1, -1] none).result
        = .error "Classification models must be trained on marginal likelihood" ∧
    (fit ⟨true, none, 2⟩ [0, 1] [1, -1] none).events.filter numericalWork
        = [FitEvent.kernSetX] := by
  have hcls : is_class [1, -1] = true := by norm_num [is_class]
  refine ⟨?_, ?_⟩ <;> simp [fit, hcls, numericalWork]

/-- C5 (amended): fitting a classification model configured with the
leave-one-out objective raises the configuration error before the
optimizer runs, leaving no hyperparameters or derived artifacts set —
though the training-data attributes are assigned and `kern.set_X` caches
the training covariance matrix first. -/
theorem fit_class_LOO_raises (cfg : FitConfig) (yIndex : List Nat) (Y : List ℚ)
    (varIndex : Option (List Nat)) (hY : is_class Y = true)
    (hobj : cfg.objectiveIsLOO = true) :
    fit cfg yIndex Y varIndex
      = { events := [.kernSetX], regr := false, hypersSet := false,
          artifactsSet := false,
          result := .error
            "Classification models must be trained on marginal likelihood" } := by
  simp [fit, hY, hobj]

theorem fit_class_LOO_raises_witness :
    fit ⟨true, none, 2⟩ [0, 2] [-1, -1] none
      = { events := [.kernSetX], regr := false, hypersSet := false,
          artifactsSet := false,
          result := .error
            "Classification models must be trained on marginal likelihood" } :=
  fit_class_LOO_raises ⟨true, none, 2⟩ [0, 2] [-1, -1] none
    (by norm_num [is_class]) rfl

theorem pickFirstMax_isSome (sq : ℚ → ℚ) (c : Cand) (cs : List Cand) :
    ∃ p, pickFirstMax sq (c :: cs) = some p := by
  rcases hcs : pickFirstMax sq cs with _ | ⟨b, rest⟩
  · exact ⟨(c, []), by simp [pickFirstMax, hcs]⟩
  · by_cases h : ub sq c < ub sq b
    · exact ⟨(b, c :: rest), by simp [pickFirstMax, hcs, h]⟩
    · exact ⟨(c, cs), by simp [pickFirstMax, hcs, h]⟩

theorem pickFirstMax_spec (sq : ℚ → ℚ) :
    ∀ pool c rest, pickFirstMax sq pool = some (c, rest) →
      IsPick sq pool c rest := by
  intro pool
  induction pool with
  | nil =>
    intro c rest h
    cases h
  | cons a cs ih =>
    intro c rest h
    rcases hcs : pickFirstMax sq cs with _ | ⟨b, rest0⟩
    · have hcsnil : cs = [] := by
        cases cs with
        | nil => rfl
        | cons x xs =>
          obtain ⟨p, hp⟩ := pickFirstMax_isSome sq x xs
          rw [hp] at hcs
          cases hcs
      subst hcsnil
      simp [pickFirstMax] at h
      obtain ⟨h1, h2⟩ := h
      exact ⟨[], [], by simp [h1], by simp [h2], by simp, by simp⟩
    · simp only [pickFirstMax, hcs] at h
      obtain ⟨pre, post, hcseq, hrest0, hpre, hpost⟩ := ih b rest0 hcs
      by_cases hub : ub sq a < ub sq b
      · rw [if_pos hub] at h
        obtain ⟨hc, hrest⟩ : b = c ∧ a :: rest0 = rest := by
          injection h with h'
          exact ⟨congrArg Prod.fst h', congrArg Prod.snd h'⟩
        subst hc
        subst hrest
        refine ⟨a :: pre, post, by simp [hcseq], by simp [hrest0], ?_, hpost⟩
        intro d hd
        rcases List.mem_cons.mp hd with hd | hd
        · subst hd
          exact hub
        · exact hpre d hd
      · rw [if_neg hub] at h
        obtain ⟨hc, hrest⟩ : a = c ∧ cs = rest := by
          injection h with h'
          exact ⟨congrArg Prod.fst h', congrArg Prod.snd h'⟩
        subst hc
        subst hrest
        have hba : ub sq b ≤ ub sq a := le_of_not_lt hub
        refine ⟨[], cs, by simp, by simp, by simp, ?_⟩
        intro d hd
        rw [hcseq] at hd
        rcases List.mem_append.mp hd with hd | hd
        · exact le_of_lt (lt_of_lt_of_le (hpre d hd) hba)
        · rcases List.mem_cons.mp hd with hd | hd
          · subst hd
            exact hba
          · exact le_trans (hpost d hd) hba

theorem IsPick_length (sq : ℚ → ℚ) {pool rest : List Cand} {c : Cand}
    (h : IsPick sq pool c rest) : rest.length + 1 = pool.length := by
  obtain ⟨pre, post, h1, h2, _, _⟩ := h
  subst h1
  subst h2
  simp [List.length_append]
  omega

theorem banditLoop_succ {σ : Type} (sq : ℚ → ℚ)
    (update : σ → Cand → List Cand → σ × List Cand)
    (n : Nat) (st : σ) (pool : List Cand) :
    banditLoop sq update (n + 1) st pool
      = match pickFirstMax sq pool with
        | none => .error "attempt to get argmax of an empty sequence"
        | some (c, rest) =>
          if n = 0 then .ok [c.id]
          else if rest.isEmpty then .error "too many indices for array"
          else match banditLoop sq update n (update st c rest).1
              (update st c rest).2 with
            | .ok ids => .ok (c.id :: ids)
            | .error e => .error e := rfl

/-- C6 (counterexample): with a single-candidate pool and `n = 2` the pool
is exhausted after the first selection; the loop then fails inside the
update (`predictions[:, 0]` on an empty array) instead of terminating with
the partial selection, so exhausting the pool does not terminate the
loop. -/
theorem bandit_exhausted_pool_counterexample :
    banditLoop (fun x => x) (fun st _ rest => (st, rest)) 2 ()
        [{ id := 0, k := [], kStar := 1, mean := 0, var := 1 }]
      = .error "too many indices for array" := rfl

/-- C6 (amended): for every fitted model, candidate pool, and batch size
`n` not exceeding the pool size, `batch_UB_bandit` repeatedly selects the
pool element maximizing `mean + 2·sqrt(variance)` (ties broken by
first-encountered order), removes it from the pool, terminates once `n`
selections are made, and returns the selected identifiers in selection
order; when `n` exceeds the pool size the loop raises at pool exhaustion
instead of terminating with the partial selection. -/
theorem bandit_selects {σ : Type} (sq : ℚ → ℚ)
    (update : σ → Cand → List Cand → σ × List Cand)
    (hupd : ∀ st c rest, (update st c rest).2.length = rest.length) :
    ∀ n st pool, n ≤ pool.length →
      ∃ ids, banditLoop sq update n st pool = .ok ids ∧ ids.length = n ∧
        Selects sq update n st pool ids := by
  intro n
  induction n with
  | zero =>
    intro st pool _
    exact ⟨[], rfl, rfl, .nil st pool⟩
  | succ n ih =>
    intro st pool hn
    obtain ⟨a, cs, rfl⟩ : ∃ a cs, pool = a :: cs := by
      cases pool with
      | nil => simp at hn
      | cons a cs => exact ⟨a, cs, rfl⟩
    obtain ⟨⟨c, rest⟩, hp⟩ := pickFirstMax_isSome sq a cs
    have hpick := pickFirstMax_spec sq (a :: cs) c rest hp
    have hlen : rest.length + 1 = (a :: cs).length := IsPick_length sq hpick
    cases n with
    | zero =>
      refine ⟨[c.id], ?_, rfl, .last st (a :: cs) c rest hpick⟩
      rw [banditLoop_succ, hp]
      rfl
    | succ n =>
      have hrest_len : n + 1 ≤ rest.length := by
        have h2 : (a :: cs).length = cs.length + 1 := by simp
        have h3 : (a :: cs).length ≥ n + 2 := hn
        omega
      have hrestne : rest ≠ [] := by
        intro hnil
        rw [hnil] at hrest_len
        simp at hrest_len
      obtain ⟨ids, hids, hidlen, hsel⟩ :=
        ih (update st c rest).1 (update st c rest).2
          (by rw [hupd]; exact hrest_len)
      refine ⟨c.id :: ids, ?_, by simp [hidlen], ?_⟩
      · rw [banditLoop_succ, hp]
        have hie : rest.isEmpty = false := by
          cases rest with
          | nil => exact absurd rfl hrestne
          | cons r rs => rfl
        simp only [Nat.succ_ne_zero, if_false, hie, Bool.false_eq_true, hids]
      · exact .step n st (a :: cs) c rest ids hpick hrestne hsel

theorem bandit_selects_witness :
    ∃ ids, banditLoop (fun x => x) (fun st _ rest => (st, rest)) 2 ()
        [{ id := 0, k := [], kStar := 1, mean := 0, var := 1 },
         { id := 1, k := [], kStar := 1, mean := 0, var := 1 }] = .ok ids ∧
      ids.length = 2 ∧
      Selects (fun x => x) (fun st _ rest => (st, rest)) 2 ()
        [{ id := 0, k := [], kStar := 1, mean := 0, var := 1 },
         { id := 1, k := [], kStar := 1, mean := 0, var := 1 }] ids :=
  bandit_selects (fun x => x) (fun st _ rest => (st, rest))
    (fun _ _ _ => rfl) 2 () _ (by simp)

theorem specArgmax_cons (f : Nat → ℚ) (s : Nat) (ss : List Nat) :
    specArgmax f (s :: ss)
      = match specArgmax f ss with
        | none => some s
        | some b => if f s < f b then some b else some s := rfl

theorem pickFirstMax_cons (sq : ℚ → ℚ) (c : Cand) (cs : List Cand) :
    pickFirstMax sq (c :: cs)
      = match pickFirstMax sq cs with
        | none => some (c, [])
        | some (b, rest) =>
          if ub sq c < ub sq b then some (b, c :: rest) else some (c, cs) := rfl

theorem pickFirstMax_map (sq : ℚ → ℚ) (g : Nat → Cand) :
    ∀ ss : List Nat, ss ≠ [] →
      ∃ s0 rest, specArgmax (fun s => ub sq (g s)) ss = some s0 ∧
        pickFirstMax sq (ss.map g) = some (g s0, rest) := by
  intro ss
  induction ss with
  | nil =>
    intro h
    exact absurd rfl h
  | cons s ss ih =>
    intro _
    cases ss with
    | nil =>
      exact ⟨s, [], by simp [specArgmax], by simp [pickFirstMax]⟩
    | cons a as =>
      obtain ⟨s0, rest, hspec, hpick⟩ := ih (by simp)
      by_cases hlt : ub sq (g s) < ub sq (g s0)
      · refine ⟨s0, g s :: rest, ?_, ?_⟩
        · rw [specArgmax_cons, hspec]
          show (if ub sq (g s) < ub sq (g s0) then some s0 else some s)
            = some s0
          rw [if_pos hlt]
        · rw [List.map_cons, pickFirstMax_cons, hpick]
          show (if ub sq (g s) < ub sq (g s0) then some (g s0, g s :: rest)
            else some (g s, List.map g (a :: as))) = some (g s0, g s :: rest)
          rw [if_pos hlt]
      · refine ⟨s, (a :: as).map g, ?_, ?_⟩
        · rw [specArgmax_cons, hspec]
          show (if ub sq (g s) < ub sq (g s0) then some s0 else some s)
            = some s
          rw [if_neg hlt]
        · rw [List.map_cons, pickFirstMax_cons, hpick]
          show (if ub sq (g s) < ub sq (g s0) then some (g s0, g s :: rest)
            else some (g s, List.map g (a :: as))) = some (g s, List.map g (a :: as))
          rw [if_neg hlt]

/-- C7: a single-selection run of `batch_UB_bandit` with `n = 1` selects
the same candidate, with the same predicted mean and variance, as
computing one-shot predictions for every candidate and taking the one with
the largest upper bound `mean + 2·sqrt(variance)`. -/
theorem bandit_single_refines_oneshot {σ : Type} (sq : ℚ → ℚ)
    (update : σ → Cand → List Cand → σ × List Cand) (st0 : σ)
    (kf : Nat → Nat → ℚ)
    (m : BanditModel) (seqIds : List Nat) (hne : seqIds ≠ []) :
    ∃ s, (batch_UB_bandit sq update st0 kf m seqIds 1).1 = .ok [s] ∧
      specTopPick sq kf m.X_seqs m.alpha m.L m.std m.mean seqIds = some s ∧
      (initCand kf m.X_seqs m.alpha m.L m.std m.mean s).mean
          = (oneShot kf m.X_seqs m.alpha m.L m.std m.mean s).1 ∧
      (initCand kf m.X_seqs m.alpha m.L m.std m.mean s).var
          = (oneShot kf m.X_seqs m.alpha m.L m.std m.mean s).2 := by
  obtain ⟨s0, rest, hspec, hpick⟩ :=
    pickFirstMax_map sq (initCand kf m.X_seqs m.alpha m.L m.std m.mean)
      seqIds hne
  refine ⟨s0, ?_, ?_, rfl, rfl⟩
  · show banditLoop sq update 1 st0
        (seqIds.map (initCand kf m.X_seqs m.alpha m.L m.std m.mean))
      = .ok [s0]
    rw [banditLoop_succ, hpick]
    rfl
  · show specArgmax
        (fun s => (oneShot kf m.X_seqs m.alpha m.L m.std m.mean s).1
          + 2 * sq (oneShot kf m.X_seqs m.alpha m.L m.std m.mean s).2)
        seqIds = some s0
    have hfun : (fun s => (oneShot kf m.X_seqs m.alpha m.L m.std m.mean s).1
          + 2 * sq (oneShot kf m.X_seqs m.alpha m.L m.std m.mean s).2)
        = fun s => ub sq (initCand kf m.X_seqs m.alpha m.L m.std m.mean s) := by
      funext s
      have h1 : (initCand kf m.X_seqs m.alpha m.L m.std m.mean s).mean
          = (oneShot kf m.X_seqs m.alpha m.L m.std m.mean s).1 := rfl
      have h2 : (initCand kf m.X_seqs m.alpha m.L m.std m.mean s).var
          = (oneShot kf m.X_seqs m.alpha m.L m.std m.mean s).2 := rfl
      simp only [ub, h1, h2]
      ring
    rw [hfun]
    exact hspec

theorem bandit_single_refines_oneshot_witness :
    ∃ s, (batch_UB_bandit (fun x => x) (fun st _ rest => (st, rest)) ()
        (fun _ _ => 1)
        { X_seqs := [0], normed_Y := [1], Ky := fun _ _ => 1, L := fun _ _ => 1,
          alpha := [1], hypers := [1], std := 1, mean := 0, kernCache := [] }
        [3, 4] 1).1 = .ok [s] ∧
      specTopPick (fun x => x) (fun _ _ => 1) [0] [1] (fun _ _ => 1) 1 0 [3, 4]
        = some s ∧
      (initCand (fun _ _ => 1) [0] [1] (fun _ _ => 1) 1 0 s).mean
          = (oneShot (fun _ _ => 1) [0] [1] (fun _ _ => 1) 1 0 s).1 ∧
      (initCand (fun _ _ => 1) [0] [1] (fun _ _ => 1) 1 0 s).var
          = (oneShot (fun _ _ => 1) [0] [1] (fun _ _ => 1) 1 0 s).2 :=
  bandit_single_refines_oneshot (fun x => x) (fun st _ rest => (st, rest)) ()
    (fun _ _ => 1)
    { X_seqs := [0], normed_Y := [1], Ky := fun _ _ => 1, L := fun _ _ => 1,
      alpha := [1], hypers := [1], std := 1, mean := 0, kernCache := [] }
    [3, 4] (by simp)

/-- C8: the classification branch of `score` hands `roc_auc_score` the raw
list of `(probability, latent mean, latent variance)` triples returned by
`predicts` instead of the class probabilities; sklearn rejects the
resulting 2-D score array with a shape error, so no ROC-AUC is returned,
although the extracted probabilities alone would give an AUC (here 1). -/
theorem score_class_shape_bug :
    score_class [1, -1] [(9/10, 0, 1), (1/10, 0, 1)]
        = .error "bad input shape" ∧
    roc_auc_score [1, -1] (.oneD [9/10, 1/10]) = .ok 1 := by
  constructor
  · rfl
  · show Except.ok (rocAuc ([(1 : ℚ), -1].zip [9/10, 1/10])) = .ok 1
    norm_num [rocAuc, List.zip, List.filter]

/-- C9 (counterexample): the blob written by `dump` does contain the
kernel — `__dict__` is copied wholesale, so the key set includes "kern"
and the serialized kernel equals the model's — contradicting the claimed
exclusion of the kernel object from the blob. -/
theorem dump_includes_kernel :
    "kern" ∈ dumpKeys ∧
    (dump { kern := 7, mean_func := 0, guesses := none,
            objectiveIsLOO := false, variances := none, X_seqs := [],
            Y := [], normed_Y := [], mean := 0, std := 1, hypers := [],
            regr := true, ell := 0, K := [], Ky := [], cholL := [],
            alpha := [], ML := 0, log_p := 0 }).kern = 7 :=
  ⟨by simp [dumpKeys], rfl⟩

/-- C9 (amended): `dump` serializes the model's full attribute set — the
kernel object included — and `load` rebuilds the model from the blob alone
(the kernel is taken from the blob, not re-supplied), after which the
loaded model's attributes equal the saved ones. -/
theorem dump_load_roundtrip (m : GPAttrs) :
    (dump m).kern = m.kern ∧ load (dump m) = .ok m := by
  obtain ⟨k, mf, g, olo, vr, xs, y, ny, mn, sd, hy, rg, el, K1, K2, L1, al,
    ml, lp⟩ := m
  cases olo <;> exact ⟨rfl, rfl⟩

/-- C10: `batch_UB_bandit` leaves every stored attribute of the model
unchanged — training set, outputs, covariance artifacts, hyperparameters,
normalization constants — because all incremental updates act on local
copies; only the kernel's cache is extended (via `train`, with no matching
`delete`). -/
theorem bandit_frame {σ : Type} (sq : ℚ → ℚ)
    (update : σ → Cand → List Cand → σ × List Cand) (st0 : σ)
    (kf : Nat → Nat → ℚ) (m : BanditModel) (seqIds : List Nat) (n : Nat) :
    ((batch_UB_bandit sq update st0 kf m seqIds n).2.X_seqs = m.X_seqs ∧
     (batch_UB_bandit sq update st0 kf m seqIds n).2.normed_Y = m.normed_Y ∧
     (batch_UB_bandit sq update st0 kf m seqIds n).2.Ky = m.Ky ∧
     (batch_UB_bandit sq update st0 kf m seqIds n).2.L = m.L ∧
     (batch_UB_bandit sq update st0 kf m seqIds n).2.alpha = m.alpha ∧
     (batch_UB_bandit sq update st0 kf m seqIds n).2.hypers = m.hypers ∧
     (batch_UB_bandit sq update st0 kf m seqIds n).2.std = m.std ∧
     (batch_UB_bandit sq update st0 kf m seqIds n).2.mean = m.mean) ∧
    (batch_UB_bandit sq update st0 kf m seqIds n).2.kernCache
      = m.kernCache ++ seqIds :=
  ⟨⟨rfl, rfl, rfl, rfl, rfl, rfl, rfl, rfl⟩, rfl⟩

end GP
